import Mathlib

/-!
Verification development for the Auto-Cleaner tabular data pipeline
(source file AutoCleaner_App.py).  The pipeline is embedded shallowly:

* a table is a list of named, dtype-tagged columns of scalar cells;
* a cell holds a string, an exact fraction (modelling Python numbers:
  every numeric value this pipeline manipulates is exactly
  representable), or an explicit missing marker (NaN);
* per-cell parsers that swallow exceptions become total functions
  returning Option; the two operations of the pipeline that can raise
  an uncaught Python exception (column access under duplicate labels,
  and mode().iloc[0] on an all-missing object column) are modelled
  with Except.

The external best-effort date parser (pandas to_datetime) is a
parameter of the date-normalisation stage: the nine explicit strptime
grammars are modelled in full, the generic fallback is an arbitrary
function producing calendar-valid dates, as pandas timestamps are.
-/

/-! ## Exact fractions

Python numbers are modelled by fractions kept in lowest terms with a
positive denominator by the smart constructor mkFlt, so that value
equality of constructed numbers is structural equality, matching how
pandas compares numeric cells.  The gcd runs on structural fuel so
that every operation evaluates inside the kernel. -/

/-- Euclid with explicit fuel (the first argument strictly decreases,
so fuel m + 1 suffices for myGcd m n). -/
def gcdFuel : Nat → Nat → Nat → Nat
  | 0, _, n => n
  | _ + 1, 0, n => n
  | f + 1, m + 1, n => gcdFuel f (n % (m + 1)) (m + 1)

/-- Greatest common divisor, kernel-computable. -/
def myGcd (m n : Nat) : Nat := gcdFuel (m + 1) m n

/-- An exact fraction: numerator and (intended positive) denominator.
All arithmetic goes through mkFlt, which normalises. -/
structure Flt where
  num : Int
  den : Nat
deriving DecidableEq, Repr

instance (n : Nat) : OfNat Flt n := ⟨⟨(n : Int), 1⟩⟩

/-- Normalising constructor: lowest terms, denominator positive. -/
def mkFlt (n : Int) (d : Nat) : Flt :=
  if d = 0 then ⟨0, 1⟩
  else
    let g := myGcd n.natAbs d
    ⟨n / (g : Int), d / g⟩

/-- Signed variant used by the literal parsers. -/
def mkFltSign (neg : Bool) (n d : Nat) : Flt :=
  mkFlt (if neg then -(n : Int) else (n : Int)) d

/-- Integer embedding. -/
def Flt.ofInt (z : Int) : Flt := ⟨z, 1⟩

/-- Addition. -/
def addFlt (a b : Flt) : Flt := mkFlt (a.num * b.den + b.num * a.den) (a.den * b.den)

/-- Multiplication. -/
def mulFlt (a b : Flt) : Flt := mkFlt (a.num * b.num) (a.den * b.den)

/-- Division. -/
def divFlt (a b : Flt) : Flt :=
  let n := a.num * (b.den : Int)
  let d := b.num * (a.den : Int)
  if d < 0 then mkFlt (-n) (-d).toNat else mkFlt n d.toNat

/-- Comparison by cross multiplication (the values this pipeline
compares all have positive denominators). -/
def leFlt (a b : Flt) : Bool := decide (a.num * (b.den : Int) ≤ b.num * (a.den : Int))

/-! ## Cells, columns, tables -/

/-- A scalar table cell: a string, a number, or an explicit missing
marker (NaN). -/
inductive Cell where
  | str (s : String)
  | num (q : Flt)
  | missing
deriving DecidableEq, Repr

/-- The pandas dtype of a column, as far as this pipeline inspects it:
object (textual) or numeric (int64 / float64 are not distinguished,
as the source never distinguishes them). -/
inductive Dtype where
  | obj
  | num
deriving DecidableEq, Repr

/-- A named column: its (pandas) label, dtype tag and cells. -/
structure Col where
  name : String
  dtype : Dtype
  cells : List Cell
deriving DecidableEq, Repr

/-- A table is an ordered list of columns.  The pandas invariant that
all columns have equal length is stated as a hypothesis where a proof
needs it, not baked into the type. -/
abbrev Table := List Col

/-! ## String helpers (Python semantics, ASCII)

Core String functions such as trim and replace do not evaluate inside
the kernel, so the few Python string operations the source uses are
implemented here on character lists.  Every replace in the source has
a single-character pattern, so removal and mapping suffice. -/

/-- Python str.lower restricted to ASCII, which is all the pipeline
produces or inspects. -/
def toLowerStr (s : String) : String := String.mk (s.data.map Char.toLower)

/-- Strip leading and trailing whitespace from a character list. -/
def stripL (l : List Char) : List Char :=
  ((l.dropWhile Char.isWhitespace).reverse.dropWhile Char.isWhitespace).reverse

/-- Python str.strip(). -/
def pyStrip (s : String) : String := String.mk (stripL s.data)

/-- Python s.replace(single character, empty string). -/
def removeChar (ch : Char) (s : String) : String :=
  String.mk (s.data.filter (fun c => !(c == ch)))

/-- Boolean list-prefix test. -/
def startsWithB : List Char → List Char → Bool
  | [], _ => true
  | _ :: _, [] => false
  | a :: as, b :: bs => a == b && startsWithB as bs

/-- Boolean contiguous-subsequence test, modelling the Python
membership test sub in s on strings. -/
def containsSeq (needle : List Char) : List Char → Bool
  | [] => startsWithB needle []
  | c :: cs => startsWithB needle (c :: cs) || containsSeq needle cs

/-- Case-insensitive column-name gate sub in col.lower() used by the
salary / age / name / remarks heuristics (sub is a lowercase literal
in the source). -/
def hasSub (needle hay : String) : Bool := containsSeq needle.data (toLowerStr hay).data

/-- Strict lexicographic order on character lists by code point: the
order Python string comparison and hence the pandas sort of a mode
result uses. -/
def lexLt : List Char → List Char → Bool
  | _, [] => false
  | [], _ :: _ => true
  | a :: as, b :: bs =>
    if a.toNat < b.toNat then true
    else if b.toNat < a.toNat then false
    else lexLt as bs

/-- String order (less or equal) via the strict order. -/
def strLe (s t : String) : Bool := !(lexLt t.data s.data)

/-- One pass of Python str.title: a letter is uppercased when the
previous character is not a letter, lowercased otherwise. -/
def titleAux : Bool → List Char → List Char
  | _, [] => []
  | prevAlpha, c :: cs =>
    (if c.isAlpha then (if prevAlpha then c.toLower else c.toUpper) else c)
      :: titleAux c.isAlpha cs

/-- Python str.title (ASCII). -/
def titleStr (s : String) : String := String.mk (titleAux false s.data)

/-- Column-name normalisation col.strip().title().replace(space,
underscore) from clean_column_names. -/
def normName (s : String) : String :=
  String.mk ((titleStr (pyStrip s)).data.map (fun c => if c = ' ' then '_' else c))

/-- clean_column_names: rewrite every column label, leaving dtypes and
cells untouched. -/
def clean_column_names (t : Table) : Table :=
  t.map (fun c => { c with name := normName c.name })

/-! ## Text-cell cleaning (clean_text_columns) -/

/-- Python str() of a cell, as pandas astype(str) applies it: NaN
stringifies to "nan"; the rendering of numbers is a model choice no
claim depends on. -/
def strOfCell : Cell → String
  | .str s => s
  | .missing => "nan"
  | .num q => if q.den = 1 then toString q.num else toString q.num ++ "/" ++ toString q.den

/-- Characters kept by the deleting filter of clean_text_columns
(the regex with character class a-z, 0-9, whitespace, period, comma,
slash, hyphen): everything else is removed. -/
def keepChar (c : Char) : Bool :=
  (('a' ≤ c && c ≤ 'z') : Bool) || c.isDigit || c.isWhitespace ||
    c == '.' || c == ',' || c == '/' || c == '-'

/-- Split on whitespace runs, dropping empty words: Python
str.split(). -/
def splitWsAux (cur : List Char) : List Char → List (List Char)
  | [] => if cur.isEmpty then [] else [cur.reverse]
  | c :: cs =>
    if c.isWhitespace then
      (if cur.isEmpty then splitWsAux [] cs else cur.reverse :: splitWsAux [] cs)
    else splitWsAux (c :: cur) cs

/-- Python str.capitalize: first character uppercased, the rest
lowercased. -/
def capWord : List Char → List Char
  | [] => []
  | c :: cs => c.toUpper :: cs.map Char.toLower

/-- The name-column treatment: join of capitalised whitespace-split
words with single spaces. -/
def capWords (s : String) : String :=
  String.mk (List.intercalate [' '] ((splitWsAux [] s.data).map capWord))

/-- Per-cell transformation of clean_text_columns for a column whose
normalised label is name: stringify, strip, lowercase, filter, then
the name / remarks specials. -/
def cleanCell (name : String) (x : Cell) : Cell :=
  let s1 := toLowerStr (pyStrip (strOfCell x))
  let s2 := String.mk (s1.data.filter keepChar)
  let s3 := if hasSub "name" name then capWords s2 else s2
  let s4 := if hasSub "remarks" name then removeChar '#' s3 else s3
  .str s4

/-- Column-level text cleaning: only object-dtype columns are touched
(select_dtypes include object). -/
def cleanTextCol (c : Col) : Col :=
  if c.dtype = .obj then { c with cells := c.cells.map (cleanCell c.name) } else c

/-- Duplicate-label hazard of clean_text_columns: the loop runs over
object-column labels and evaluates df[col].astype(str).str...; when a
label selects more than one column, df[col] is a DataFrame and the
.str accessor raises AttributeError. -/
def hasObjDupName (t : Table) : Bool :=
  t.any (fun c =>
    decide (c.dtype = .obj) && decide (2 ≤ t.countP (fun c2 => decide (c2.name = c.name))))

/-- clean_text_columns: per-cell string cleanup on object columns;
raises (models AttributeError) when an object-column label is
duplicated. -/
def clean_text_columns (t : Table) : Except String Table :=
  if hasObjDupName t then .error "AttributeError" else .ok (t.map cleanTextCol)

/-- Duplicate-label test over all columns.  The per-label loops of
parse_date_columns (df[col].dtype is read for every label, and on a
duplicated label df[col] is a DataFrame without a dtype attribute:
AttributeError) and handle_missing_values (the if-test on a Series of
means: ValueError) both raise as soon as any label is duplicated. -/
def hasDupName (t : Table) : Bool :=
  t.any (fun c => decide (2 ≤ t.countP (fun c2 => decide (c2.name = c.name))))

/-! ## Row deduplication (remove_duplicates) -/

/-- Number of rows of a table: the length of its first column (pandas
keeps all columns the same length; an empty table has no rows). -/
def nRows (t : Table) : Nat :=
  match t with
  | [] => 0
  | c :: _ => c.cells.length

/-- Head cell of a column slice (total; only used within the uniform
length). -/
def headCell (l : List Cell) : Cell := l.headD .missing

/-- The first n rows of a column list, read off positionally. -/
def toRowsN : Nat → List (List Cell) → List (List Cell)
  | 0, _ => []
  | n + 1, cols => cols.map headCell :: toRowsN n (cols.map List.tail)

/-- The rows of a table, as lists of cells aligned with the column
order.  NaN counts as equal to NaN here, exactly as
DataFrame.drop_duplicates treats missing values. -/
def rowsOf (t : Table) : List (List Cell) := toRowsN (nRows t) (t.map Col.cells)

/-- Keep-first duplicate mask over a row list: true marks the first
occurrence of a row value, false a later duplicate. -/
def maskDup (seen : List (List Cell)) : List (List Cell) → List Bool
  | [] => []
  | r :: rs => if r ∈ seen then false :: maskDup seen rs else true :: maskDup (r :: seen) rs

/-- Filter a list through a boolean keep-mask. -/
def applyMask : List Bool → List α → List α
  | b :: bs, x :: xs => if b then x :: applyMask bs xs else applyMask bs xs
  | _, _ => []

/-- remove_duplicates: df.drop_duplicates(keep=first) — drop every row
equal (across all columns) to an earlier row, preserving order. -/
def remove_duplicates (t : Table) : Table :=
  let m := maskDup [] (rowsOf t)
  t.map (fun c => { c with cells := applyMask m c.cells })

/-! ## Numeral parsing (roman_to_int and parse_salary) -/

/-- The roman symbol values, with the source fallback
roman_map.get(char, 0) for unknown characters. -/
def romanVal (c : Char) : Int :=
  if c = 'i' then 1 else if c = 'v' then 5 else if c = 'x' then 10
  else if c = 'l' then 50 else if c = 'c' then 100 else if c = 'd' then 500
  else if c = 'm' then 1000 else 0

/-- roman_to_int: lowercase, then scan right-to-left, subtracting a
symbol strictly smaller than its right neighbour and adding otherwise.
No well-formedness validation is performed, exactly as in the
source. -/
def roman_to_int (s : String) : Int :=
  ((toLowerStr s).data.reverse.foldl
    (fun acc c =>
      let v := romanVal c
      (if v < acc.2 then acc.1 - v else acc.1 + v, v))
    ((0 : Int), (0 : Int))).1

/-- Numeric value of a digit list (most significant first). -/
def natOfDigits (l : List Char) : Nat :=
  l.foldl (fun n c => n * 10 + (c.toNat - '0'.toNat)) 0

/-- Exponent tail of a Python float literal applied to an already
scanned mantissa mn / md: empty, or e / E with an optional sign and a
nonempty digit run consuming the rest. -/
def expFinish (neg : Bool) (mn md : Nat) (l : List Char) : Option Flt :=
  match l with
  | [] => some (mkFltSign neg mn md)
  | c :: r =>
    if c = 'e' ∨ c = 'E' then
      let sr : Bool × List Char :=
        match r with
        | '+' :: rr => (false, rr)
        | '-' :: rr => (true, rr)
        | _ => (false, r)
      let ds := sr.2.takeWhile Char.isDigit
      if ds.isEmpty ∨ ¬ (sr.2.drop ds.length).isEmpty then none
      else if sr.1 then some (mkFltSign neg mn (md * 10 ^ natOfDigits ds))
      else some (mkFltSign neg (mn * 10 ^ natOfDigits ds) md)
    else none

/-- Python float(s) on finite decimal literals: optional surrounding
whitespace and sign, digits with at most one point and at least one
digit, optional exponent.  Digit-group underscores and the special
spellings are not parsed here: the nan spelling coerces to missing
either way, and the infinity spellings are recognised where the
pipeline accepts them, in the pd.to_numeric model toNumericCell. -/
def pyFloat (s : String) : Option Flt :=
  let l := stripL s.data
  let sl : Bool × List Char :=
    match l with
    | '+' :: r => (false, r)
    | '-' :: r => (true, r)
    | _ => (false, l)
  let ip := sl.2.takeWhile Char.isDigit
  let r1 := sl.2.drop ip.length
  match r1 with
  | [] => if ip.isEmpty then none else some (mkFltSign sl.1 (natOfDigits ip) 1)
  | '.' :: r2 =>
    let fp := r2.takeWhile Char.isDigit
    let r3 := r2.drop fp.length
    if ip.isEmpty ∧ fp.isEmpty then none
    else expFinish sl.1 (natOfDigits ip * 10 ^ fp.length + natOfDigits fp) (10 ^ fp.length) r3
  | _ => if ip.isEmpty then none else expFinish sl.1 (natOfDigits ip) 1 r1

/-- The cleaning prefix of parse_salary:
str(val).lower().replace(dollar, empty).replace(comma, empty).strip(). -/
def cleanNumStr (s : String) : String :=
  pyStrip (removeChar ',' (removeChar '$' (toLowerStr s)))

/-- The alphabet of the roman branch. -/
def romanChars : List Char := ['i', 'v', 'x', 'l', 'c', 'd', 'm']

/-- The roman-branch guard: re.fullmatch of one or more roman-alphabet
characters. -/
def romanShape (s : String) : Bool :=
  !s.data.isEmpty && s.data.all (fun c => decide (c ∈ romanChars))

/-- parse_salary (the numeral parser of the spec): clean, then try the
roman branch, the k-suffix branch, and the digit-filtering float
branch; every failure yields none rather than an error. -/
def parse_salary (v : Cell) : Option Flt :=
  let s := cleanNumStr (strOfCell v)
  if romanShape s then some (Flt.ofInt (roman_to_int s))
  else if s.data.contains 'k' then (pyFloat (removeChar 'k' s)).map (fun q => mulFlt q 1000)
  else pyFloat (String.mk (s.data.filter (fun c => c.isDigit || c = '.')))

/-- Result cell of a per-cell Option parser: missing on none, exactly
how pandas stores the None returned by parse_salary. -/
def optCell : Option Flt → Cell
  | some q => .num q
  | none => .missing

/-- Column step of normalize_salary_column: a column whose lowered
label contains salary is rewritten cell-by-cell through parse_salary;
the dtype becomes numeric (apply over a nonempty column returns only
floats and None), an empty column keeps its dtype. -/
def salaryStep (c : Col) : Col :=
  if hasSub "salary" c.name then
    { c with dtype := if c.cells.isEmpty then c.dtype else .num,
             cells := c.cells.map (fun v => optCell (parse_salary v)) }
  else c

/-- normalize_salary_column over the whole table. -/
def normalize_salary_column (t : Table) : Table := t.map salaryStep

/-! ## Age normalisation (normalize_age_column) -/

/-- The fixed lookup of normalize_age_column, applied by
Series.replace: an exact, case-sensitive match of the whole cell value
against the five keys; the value for the key none is missing
(Python None). -/
def ageSubst : Cell → Cell
  | .str s =>
    if s = "thirty" then .str "30"
    else if s = "twenty two" then .str "22"
    else if s = "twenty" then .str "20"
    else if s = "forty" then .str "40"
    else if s = "none" then .missing
    else .str s
  | x => x

/-- Spellings of the IEEE infinities that pd.to_numeric (like Python
float) parses to a float: optional sign, then inf or infinity,
case-insensitive, surrounding whitespace stripped; the value is the
sign.  The nan spelling needs no special case — it coerces to NaN,
which the model stores as missing already. -/
def infSign (s : String) : Option Bool :=
  let l := (stripL s.data).map Char.toLower
  let sl : Bool × List Char :=
    match l with
    | '+' :: r => (false, r)
    | '-' :: r => (true, r)
    | _ => (false, l)
  if sl.2 = "inf".data ∨ sl.2 = "infinity".data then some sl.1 else none

/-- The IEEE infinities pd.to_numeric can produce, encoded with
denominator zero.  No other pipeline operation produces such a value
and no claim evaluates one; they exist so that the coercion model
accepts exactly what pd.to_numeric accepts. -/
def fltInf (neg : Bool) : Flt := ⟨if neg then -1 else 1, 0⟩

/-- pd.to_numeric(..., errors=coerce) on one cell: numbers pass
through, strings parse as numeric literals or infinity spellings, all
remaining failures coerce to missing. -/
def toNumericCell : Cell → Cell
  | .num q => .num q
  | .missing => .missing
  | .str s =>
    match pyFloat s with
    | some q => .num q
    | none =>
      match infSign s with
      | some neg => .num (fltInf neg)
      | none => .missing

/-- Column body of normalize_age_column for a matching column. -/
def ageCol (c : Col) : Col :=
  { c with dtype := .num, cells := c.cells.map (fun x => toNumericCell (ageSubst x)) }

/-- Column step of normalize_age_column: gate on the label containing
age (case-insensitive), then substitute and coerce. -/
def ageStep (c : Col) : Col :=
  if hasSub "age" c.name then ageCol c else c

/-- Age-matching duplicate-label hazard: the loop applies
pd.to_numeric to df[col] for every label containing age; on a
duplicated such label df[col] is a DataFrame, and pd.to_numeric
raises TypeError regardless of errors=coerce. -/
def hasAgeDupName (t : Table) : Bool :=
  t.any (fun c =>
    hasSub "age" c.name && decide (2 ≤ t.countP (fun c2 => decide (c2.name = c.name))))

/-- normalize_age_column over the whole table; raises (models
TypeError) when an age-matching label is duplicated. -/
def normalize_age_column (t : Table) : Except String Table :=
  if hasAgeDupName t then .error "TypeError" else .ok (t.map ageStep)

/-! ## Date normalisation (parse_date_columns)

The nine strptime format strings of the source are modelled as token
lists run by a small engine reproducing CPython strptime behaviour on
them: one- or two-digit day in 1..31 (a space-padded single digit is
also accepted), one- or two-digit month in 1..12, exactly four year
digits, case-insensitive English month names, literal separators,
whitespace in a format matching a nonempty whitespace run, a full
match of the input required, and the resulting calendar date validated
as datetime would (raising, hence failing the format, on an impossible
day such as 31-02). -/

/-- A calendar date record (year, month, day), before validation. -/
structure DateRec where
  y : Nat
  m : Nat
  d : Nat
deriving DecidableEq, Repr

/-- Gregorian leap-year rule, as datetime implements it. -/
def isLeap (y : Nat) : Bool := y % 4 == 0 && (y % 100 != 0 || y % 400 == 0)

/-- Days in a month. -/
def daysInMonth (y m : Nat) : Nat :=
  if m = 2 then (if isLeap y then 29 else 28)
  else if m = 4 ∨ m = 6 ∨ m = 9 ∨ m = 11 then 30 else 31

/-- Validity of a date record: the exact constraints under which
datetime(y, m, d) constructs (the datetime year range is 1..9999). -/
def dateOK (r : DateRec) : Bool :=
  decide (1 ≤ r.y) && decide (r.y ≤ 9999) && decide (1 ≤ r.m) && decide (r.m ≤ 12) &&
    decide (1 ≤ r.d) && decide (r.d ≤ daysInMonth r.y r.m)

/-- A validated calendar date, the model of a datetime / Timestamp
value. -/
abbrev VDate := { r : DateRec // dateOK r = true }

/-- Value of a decimal digit character. -/
def dVal (c : Char) : Nat := c.toNat - '0'.toNat

/-- Day field of strptime: a two-digit 01..31, a bare 1..9, or a
space-padded 1..9. -/
def pDay : List Char → Option (Nat × List Char)
  | c1 :: c2 :: r =>
    if c1.isDigit && c2.isDigit then
      let v := dVal c1 * 10 + dVal c2
      if 1 ≤ v ∧ v ≤ 31 then some (v, r) else none
    else if c1.isDigit then
      if 1 ≤ dVal c1 then some (dVal c1, c2 :: r) else none
    else if c1 = ' ' && c2.isDigit && decide (1 ≤ dVal c2) then some (dVal c2, r)
    else none
  | [c1] => if c1.isDigit && decide (1 ≤ dVal c1) then some (dVal c1, []) else none
  | [] => none

/-- Month-number field of strptime: a two-digit 01..12 or a bare
1..9. -/
def pMonNum : List Char → Option (Nat × List Char)
  | c1 :: c2 :: r =>
    if c1.isDigit && c2.isDigit then
      let v := dVal c1 * 10 + dVal c2
      if 1 ≤ v ∧ v ≤ 12 then some (v, r) else none
    else if c1.isDigit then
      if 1 ≤ dVal c1 then some (dVal c1, c2 :: r) else none
    else none
  | [c1] => if c1.isDigit && decide (1 ≤ dVal c1) then some (dVal c1, []) else none
  | [] => none

/-- Year field of strptime: exactly four digits. -/
def pYear4 : List Char → Option (Nat × List Char)
  | a :: b :: c :: d :: r =>
    if a.isDigit && b.isDigit && c.isDigit && d.isDigit then
      some (dVal a * 1000 + dVal b * 100 + dVal c * 10 + dVal d, r)
    else none
  | _ => none

/-- The English month names (the C locale of strptime), lowercase. -/
def monthFulls : List (Nat × List Char) :=
  [(1, "january".data), (2, "february".data), (3, "march".data), (4, "april".data),
   (5, "may".data), (6, "june".data), (7, "july".data), (8, "august".data),
   (9, "september".data), (10, "october".data), (11, "november".data),
   (12, "december".data)]

/-- The English abbreviated month names, lowercase. -/
def monthAbbrs : List (Nat × List Char) :=
  [(1, "jan".data), (2, "feb".data), (3, "mar".data), (4, "apr".data), (5, "may".data),
   (6, "jun".data), (7, "jul".data), (8, "aug".data), (9, "sep".data), (10, "oct".data),
   (11, "nov".data), (12, "dec".data)]

/-- Case-insensitive month-name field: the first listed name that
prefixes the input wins (no English month name is a prefix of
another, so the order cannot matter). -/
def pMonName (names : List (Nat × List Char)) (l : List Char) : Option (Nat × List Char) :=
  match names with
  | [] => none
  | (k, nm) :: rest =>
    if startsWithB nm (l.map Char.toLower) then some (k, l.drop nm.length)
    else pMonName rest l

/-- One token of a strptime format string. -/
inductive FmtTok where
  | lit (c : Char)
  | ws
  | dayTok
  | monNum
  | year4
  | monAbbr
  | monFull
deriving DecidableEq, Repr

/-- Engine for one format: consume tokens against the input, recording
the year, month and day fields (strptime defaults: 1900-01-01), and
require the whole input consumed. -/
def runFmtAux : List FmtTok → List Char → Nat → Nat → Nat → Option DateRec
  | [], l, y, m, d => if l.isEmpty then some ⟨y, m, d⟩ else none
  | tok :: ts, l, y, m, d =>
    match tok with
    | .lit c =>
      match l with
      | c2 :: r => if c2 = c then runFmtAux ts r y m d else none
      | [] => none
    | .ws =>
      match l with
      | c :: _ =>
        if c.isWhitespace then runFmtAux ts (l.dropWhile Char.isWhitespace) y m d else none
      | [] => none
    | .dayTok =>
      match pDay l with
      | some (v, r) => runFmtAux ts r y m v
      | none => none
    | .monNum =>
      match pMonNum l with
      | some (v, r) => runFmtAux ts r y v d
      | none => none
    | .year4 =>
      match pYear4 l with
      | some (v, r) => runFmtAux ts r v m d
      | none => none
    | .monAbbr =>
      match pMonName monthAbbrs l with
      | some (v, r) => runFmtAux ts r y v d
      | none => none
    | .monFull =>
      match pMonName monthFulls l with
      | some (v, r) => runFmtAux ts r y v d
      | none => none

/-- Run one format and validate the resulting date, as
datetime.strptime does when constructing the datetime. -/
def runFmt (toks : List FmtTok) (l : List Char) : Option VDate :=
  match runFmtAux toks l 1900 1 1 with
  | some r => if h : dateOK r = true then some ⟨r, h⟩ else none
  | none => none

/-- The known_formats list of the source, in order:
DD-MM-YYYY, DD/MM/YYYY, YYYY-MM-DD, MM/DD/YYYY, YYYY/MM/DD,
DD-Mon-YYYY, DD Month YYYY, Month DD, YYYY, Mon DD, YYYY. -/
def knownFormats : List (List FmtTok) :=
  [[.dayTok, .lit '-', .monNum, .lit '-', .year4],
   [.dayTok, .lit '/', .monNum, .lit '/', .year4],
   [.year4, .lit '-', .monNum, .lit '-', .dayTok],
   [.monNum, .lit '/', .dayTok, .lit '/', .year4],
   [.year4, .lit '/', .monNum, .lit '/', .dayTok],
   [.dayTok, .lit '-', .monAbbr, .lit '-', .year4],
   [.dayTok, .ws, .monFull, .ws, .year4],
   [.monFull, .ws, .dayTok, .lit ',', .ws, .year4],
   [.monAbbr, .ws, .dayTok, .lit ',', .ws, .year4]]

/-- First format that parses wins: the for-fmt-in-known_formats loop
with its break. -/
def firstFmt : List (List FmtTok) → List Char → Option VDate
  | [], _ => none
  | f :: fs, l =>
    match runFmt f l with
    | some v => some v
    | none => firstFmt fs l

/-- Try all nine grammars in order on an input. -/
def tryFormats (l : List Char) : Option VDate := firstFmt knownFormats l

/-- Two-digit zero-padded field. -/
def pad2 (n : Nat) : List Char := [Nat.digitChar (n / 10 % 10), Nat.digitChar (n % 10)]

/-- Four-digit zero-padded field. -/
def pad4 (n : Nat) : List Char :=
  [Nat.digitChar (n / 1000 % 10), Nat.digitChar (n / 100 % 10),
   Nat.digitChar (n / 10 % 10), Nat.digitChar (n % 10)]

/-- strftime of the canonical output format: the fixed
year-month-day rendering with zero padding. -/
def strftimeISO (v : VDate) : String :=
  String.mk (pad4 v.1.y ++ '-' :: pad2 v.1.m ++ '-' :: pad2 v.1.d)

/-- Exact shape test for the canonical form YYYY-MM-DD. -/
def isISO (s : String) : Bool :=
  match s.data with
  | [a, b, c, d, h1, e, f, h2, g, h] =>
    a.isDigit && b.isDigit && c.isDigit && d.isDigit && h1 == '-' &&
      e.isDigit && f.isDigit && h2 == '-' && g.isDigit && h.isDigit
  | _ => false

/-- Per-cell date parse: the trimmed stringified cell against the nine
grammars, then the generic fallback fb (pandas to_datetime with
coercion) on the raw cell; a surviving parse is rendered canonically,
anything else becomes missing. -/
def dateCellParse (fb : Cell → Option VDate) (x : Cell) : Cell :=
  match tryFormats (stripL (strOfCell x).data) with
  | some v => .str (strftimeISO v)
  | none =>
    match fb x with
    | some v => .str (strftimeISO v)
    | none => .missing

/-- Column step of parse_date_columns: only textual (object dtype)
columns are attempted, and the parsed column is committed only when
some cell parsed to a non-missing date (the any(cleaned_col) test:
every parsed entry is None or a nonempty string). -/
def dateStep (fb : Cell → Option VDate) (c : Col) : Col :=
  if c.dtype = .obj then
    if (c.cells.map (dateCellParse fb)).any (fun x => decide (x ≠ .missing)) then
      { c with cells := c.cells.map (dateCellParse fb) }
    else c
  else c

/-- parse_date_columns over the whole table, parameterised by the
external fallback parser.  The loop reads df[col].dtype for every
label of the table; on a duplicated label df[col] is a DataFrame,
which has no dtype attribute, so the stage raises (models
AttributeError) before touching any cell. -/
def parse_date_columns (fb : Cell → Option VDate) (t : Table) : Except String Table :=
  if hasDupName t then .error "AttributeError" else .ok (t.map (dateStep fb))

/-! ## Missing-value imputation (handle_missing_values) -/

/-- Number of missing cells of a column. -/
def countMissing (l : List Cell) : Nat := l.countP (fun x => decide (x = .missing))

/-- The non-missing cells of a column, in order. -/
def nonMissing (l : List Cell) : List Cell := l.filter (fun x => decide (x ≠ .missing))

/-- df[col].isnull().mean(): none on an empty column (pandas yields
NaN there, and the guard comparison with NaN is false).  The fraction
is kept unreduced; only its value is ever compared. -/
def missingFrac (c : Col) : Option Flt :=
  if c.cells.length = 0 then none
  else some ⟨(countMissing c.cells : Int), c.cells.length⟩

/-- The imputation guard isnull().mean() <= threshold, false for the
NaN mean of an empty column. -/
def colGuard (th : Flt) (c : Col) : Bool :=
  match missingFrac c with
  | none => false
  | some f => leFlt f th

/-- Multiplicity of a value in a cell list. -/
def freqIn (l : List Cell) (v : Cell) : Nat := l.countP (fun x => decide (x = v))

/-- The maximal multiplicity attained in a cell list. -/
def maxFreq (l : List Cell) : Nat := l.foldl (fun a v => max a (freqIn l v)) 0

/-- The ascending value order pandas sorts a mode result by.  On the
homogeneous columns the pipeline produces this is the pandas order
(lexicographic on strings, numeric on numbers); the inter-kind cases
are a total completion, unreachable from the claims. -/
def cellLe (a b : Cell) : Bool :=
  match a, b with
  | .missing, _ => true
  | _, .missing => false
  | .num p, .num q => leFlt p q
  | .num _, .str _ => true
  | .str _, .num _ => false
  | .str s, .str t => strLe s t

/-- Least element of a nonempty cell list under cellLe. -/
def minByLe : List Cell → Option Cell
  | [] => none
  | x :: xs => some (xs.foldl (fun a y => if cellLe a y then a else y) x)

/-- Series.mode().iloc[0]: the least, in sorted order, among the
values of maximal multiplicity; none exactly when the list is empty,
where iloc[0] raises IndexError. -/
def modeMin (l : List Cell) : Option Cell :=
  minByLe (l.filter (fun v => decide (freqIn l v = maxFreq l)))

/-- The numeric values of a cell list, in order. -/
def ratsOf (l : List Cell) : List Flt :=
  l.filterMap (fun x => match x with | .num q => some q | _ => none)

/-- Ascending insertion. -/
def insAsc (q : Flt) : List Flt → List Flt
  | [] => [q]
  | x :: xs => if leFlt q x then q :: x :: xs else x :: insAsc q xs

/-- Ascending insertion sort. -/
def sortAsc (l : List Flt) : List Flt := l.foldr insAsc []

/-- Series.median() over the non-missing values: the middle of the
sorted values, interpolating the mean of the two middles for an even
count; none for an empty list (pandas yields NaN, and filling with
NaN changes nothing). -/
def medianOf (l : List Flt) : Option Flt :=
  let s := sortAsc l
  match s.length with
  | 0 => none
  | n + 1 =>
    some (if (n + 1) % 2 = 1 then s.getD ((n + 1) / 2) 0
          else divFlt (addFlt (s.getD ((n + 1) / 2 - 1) 0) (s.getD ((n + 1) / 2) 0)) 2)

/-- Series.fillna(v): replace every missing cell by v. -/
def fillMissing (v : Cell) (l : List Cell) : List Cell :=
  l.map (fun x => if x = .missing then v else x)

/-- Per-column imputation: under the guard, an object column is
filled with its mode head (IndexError when the mode is empty, that
is when every cell is missing), a numeric column with its median
(fillna with the NaN median of an all-missing column changes
nothing). -/
def colImpute (th : Flt) (c : Col) : Except String Col :=
  if colGuard th c then
    match c.dtype with
    | .obj =>
      match modeMin (nonMissing c.cells) with
      | some v => .ok { c with cells := fillMissing v c.cells }
      | none => .error "IndexError"
    | .num =>
      match medianOf (ratsOf c.cells) with
      | some q => .ok { c with cells := fillMissing (.num q) c.cells }
      | none => .ok c
  else .ok c

/-- Monadic map over Except, carried out left to right as the source
loop is. -/
def exMapM (f : α → Except String β) : List α → Except String (List β)
  | [] => .ok []
  | a :: as =>
    match f a with
    | .error e => .error e
    | .ok b =>
      match exMapM f as with
      | .error e => .error e
      | .ok bs => .ok (b :: bs)

/-- handle_missing_values with its threshold (source default 0.4). -/
def handle_missing_values (t : Table) (th : Flt) : Except String Table :=
  if hasDupName t then .error "ValueError" else exMapM (colImpute th) t

/-! ## Report and orchestrator -/

/-- The four integers of generate_cleaning_report. -/
structure CleaningReport where
  rowsBefore : Nat
  rowsAfter : Nat
  colsBefore : Nat
  colsAfter : Nat
deriving DecidableEq, Repr

/-- generate_cleaning_report from the before and after snapshots. -/
def generate_cleaning_report (before after : Table) : CleaningReport :=
  ⟨nRows before, nRows after, before.length, after.length⟩

/-- The source threshold 0.4 as the exact fraction 2/5 (the difference
to the binary float 0.4 cannot be observed by a missing fraction with
a feasible denominator). -/
def defaultThreshold : Flt := ⟨2, 5⟩

/-- auto_clean: snapshot, then the seven stages in their fixed order,
then the report. -/
def auto_clean (fb : Cell → Option VDate) (t : Table) :
    Except String (Table × CleaningReport) := do
  let tBefore := t
  let t1 := clean_column_names t
  let t2 := remove_duplicates t1
  let t3 ← clean_text_columns t2
  let t4 := normalize_salary_column t3
  let t5 ← normalize_age_column t4
  let t6 ← parse_date_columns fb t5
  let t7 ← handle_missing_values t6 defaultThreshold
  pure (t7, generate_cleaning_report tBefore t7)

/-! ## General helper facts -/

instance {ε α : Type} [DecidableEq ε] [DecidableEq α] : DecidableEq (Except ε α) := fun a b =>
  match a, b with
  | .error e, .error f =>
    if h : e = f then .isTrue (by rw [h]) else .isFalse (fun hh => h (by injection hh))
  | .error _, .ok _ => .isFalse (fun hh => by injection hh)
  | .ok _, .error _ => .isFalse (fun hh => by injection hh)
  | .ok a, .ok b =>
    if h : a = b then .isTrue (by rw [h]) else .isFalse (fun hh => h (by injection hh))

theorem exMapM_ok_forall2 {α β : Type} (f : α → Except String β) :
    ∀ (l : List α) (l' : List β), exMapM f l = .ok l' →
      List.Forall₂ (fun a b => f a = .ok b) l l' := by
  intro l
  induction l with
  | nil =>
    intro l' h
    simp only [exMapM] at h
    injection h with h
    rw [← h]
    exact List.Forall₂.nil
  | cons a as ih =>
    intro l' h
    simp only [exMapM] at h
    cases hfa : f a with
    | error e => rw [hfa] at h; exact absurd h (by simp)
    | ok b =>
      rw [hfa] at h
      cases hrest : exMapM f as with
      | error e => rw [hrest] at h; exact absurd h (by simp)
      | ok bs =>
        rw [hrest] at h
        injection h with h
        rw [← h]
        exact List.Forall₂.cons hfa (ih bs hrest)

theorem exMapM_ok_of_all {α β : Type} (f : α → Except String β) :
    ∀ l : List α, (∀ a ∈ l, ∃ b, f a = .ok b) → ∃ l', exMapM f l = .ok l' := by
  intro l
  induction l with
  | nil => exact fun _ => ⟨[], rfl⟩
  | cons a as ih =>
    intro h
    obtain ⟨b, hb⟩ := h a (by simp)
    obtain ⟨bs, hbs⟩ := ih (fun x hx => h x (by simp [hx]))
    exact ⟨b :: bs, by simp [exMapM, hb, hbs]⟩

theorem countP_name_le_one {t : Table} (hn : (t.map Col.name).Nodup) (c : Col) :
    t.countP (fun c2 => decide (c2.name = c.name)) ≤ 1 := by
  have h1 : t.countP (fun c2 => decide (c2.name = c.name)) =
      (t.map Col.name).countP (fun s => decide (s = c.name)) := by
    rw [List.countP_map]; rfl
  have h2 : (t.map Col.name).countP (fun s => decide (s = c.name)) =
      (t.map Col.name).count c.name := by
    rw [List.count]
    apply List.countP_congr
    intro s _
    constructor
    · intro hs; simpa using hs
    · intro hs; simpa using hs
  rw [h1, h2]
  exact List.nodup_iff_count_le_one.mp hn c.name

theorem hasDupName_false {t : Table} (hn : (t.map Col.name).Nodup) :
    hasDupName t = false := by
  rw [hasDupName, List.any_eq_false]
  intro c _
  have := countP_name_le_one hn c
  simp only [decide_eq_true_eq]
  omega

theorem hasObjDupName_false {t : Table} (hn : (t.map Col.name).Nodup) :
    hasObjDupName t = false := by
  rw [hasObjDupName, List.any_eq_false]
  intro c _
  have := countP_name_le_one hn c
  simp only [Bool.and_eq_true, decide_eq_true_eq, not_and]
  intro _
  omega

theorem hasAgeDupName_false {t : Table} (hn : (t.map Col.name).Nodup) :
    hasAgeDupName t = false := by
  rw [hasAgeDupName, List.any_eq_false]
  intro c _
  have := countP_name_le_one hn c
  simp only [Bool.and_eq_true, decide_eq_true_eq, not_and]
  intro _
  omega

/-! ## Claim C2: the numeral parser -/

/-- C2: for an input whose cleaned form (lower-cased, dollar and comma
removed, trimmed) consists of one or more characters of the roman
alphabet, parse_salary returns the permissive right-to-left
subtractive roman decode roman_to_int without further validation; and
the four concrete behaviours of the claim hold, together with the
subtractive samples IV = 4 and xl = 40. -/
theorem claim_C2_parse_numeral :
    (∀ s : String, romanShape (cleanNumStr s) = true →
        parse_salary (.str s) = some (Flt.ofInt (roman_to_int (cleanNumStr s))))
    ∧ parse_salary (.str "IV") = some 4
    ∧ parse_salary (.str "xl") = some 40
    ∧ parse_salary (.str "$1,200") = some 1200
    ∧ parse_salary (.str "15k") = some 15000
    ∧ parse_salary (.str "abc") = none := by
  refine ⟨?_, by decide, by decide, by decide, by decide, by decide⟩
  intro s h
  simp [parse_salary, strOfCell, h]

/-- Witness for C2: the roman branch evaluated at the all-roman input
MIX (the permissive decode yields 1009). -/
theorem claim_C2_witness :
    parse_salary (.str "MIX") = some (Flt.ofInt (roman_to_int (cleanNumStr "MIX"))) :=
  claim_C2_parse_numeral.1 "MIX" (by decide)

/-! ## Claim C5: age normalisation -/

/-- C5 (counterexample): on a table with two columns both labelled
Age, the loop reaches the duplicated age-matching label, df[col] is a
two-column DataFrame, and pd.to_numeric raises TypeError even with
errors=coerce — the age normalizer errors on a well-formed table, so
failed coercions do not unconditionally degrade to missing markers
rather than an error. -/
theorem claim_C5_cex :
    normalize_age_column [⟨"Age", .obj, [.str "22"]⟩, ⟨"Age", .obj, [.str "30"]⟩]
      = .error "TypeError" := by rfl

/-- C5 (amended): provided no age-matching column label is duplicated
(otherwise pd.to_numeric receives a DataFrame and the stage raises
TypeError), every column whose lowered name contains age is
substituted through the fixed five-entry lookup by exact whole-cell
case-sensitive match (the pipeline hands it trimmed, lower-cased
cells) and then coerced cell by cell with pd.to_numeric semantics —
numeric literals and infinity spellings parse to numbers, every other
cell becomes an explicit missing marker rather than an error;
non-matching columns are untouched, and the concrete example of the
claim holds. -/
theorem claim_C5_age :
    (∀ t t' : Table, normalize_age_column t = .ok t' → t' = t.map ageStep)
    ∧ (∀ t : Table, hasAgeDupName t = false →
        normalize_age_column t = .ok (t.map ageStep))
    ∧ (∀ c : Col, hasSub "age" c.name = true →
        ageStep c = { c with dtype := .num,
                             cells := c.cells.map (fun x => toNumericCell (ageSubst x)) })
    ∧ (∀ c : Col, hasSub "age" c.name = false → ageStep c = c)
    ∧ (∀ s : String, s ∉ ["thirty", "twenty two", "twenty", "forty", "none"] →
        ageSubst (.str s) = .str s)
    ∧ (∀ s : String, pyFloat s = none → infSign s = none →
        toNumericCell (.str s) = .missing)
    ∧ ageSubst (.str "thirty") = .str "30"
    ∧ ageSubst (.str "twenty two") = .str "22"
    ∧ ageSubst (.str "twenty") = .str "20"
    ∧ ageSubst (.str "forty") = .str "40"
    ∧ ageSubst (.str "none") = .missing
    ∧ normalize_age_column [⟨"Age", .obj, [.str "thirty", .str "22", .str "unknown"]⟩] =
        .ok [⟨"Age", .num, [.num 30, .num 22, .missing]⟩] := by
  refine ⟨?_, ?_, ?_, ?_, ?_, ?_, by decide, by decide, by decide, by decide, by decide,
    by decide⟩
  · intro t t' h
    rw [normalize_age_column] at h
    by_cases hd : hasAgeDupName t = true
    · rw [if_pos hd] at h
      exact absurd h (by simp)
    · rw [if_neg hd] at h
      injection h with h
      exact h.symm
  · intro t hd
    rw [normalize_age_column, if_neg (by simp [hd])]
  · intro c h
    simp [ageStep, ageCol, h]
  · intro c h
    simp [ageStep, h]
  · intro s h
    simp only [List.mem_cons, List.mem_singleton, not_or] at h
    obtain ⟨h1, h2, h3, h4, h5⟩ := h
    simp [ageSubst, h1, h2, h3, h4, h5]
  · intro s h1 h2
    simp [toNumericCell, h1, h2]

/-- Witness for C5: the age column step applied to a concrete
matching column. -/
theorem claim_C5_witness :
    ageStep ⟨"Age", .obj, [.str "forty"]⟩ =
      { name := "Age", dtype := .num,
        cells := [Cell.str "forty"].map (fun x => toNumericCell (ageSubst x)) } :=
  claim_C5_age.2.2.1 ⟨"Age", .obj, [.str "forty"]⟩ (by decide)

/-! ## Claim C7: uniqueness of normalised column names -/

/-- C7 (counterexample): two distinct input column names, a and A,
normalise to the same name A, so the result of clean_column_names can
carry duplicate names, refuting the claimed uniqueness for every
input table. -/
theorem claim_C7_cex :
    ¬ ((clean_column_names [⟨"a", .obj, []⟩, ⟨"A", .obj, []⟩]).map Col.name).Nodup := by
  decide

/-- C7 (amended): clean_column_names rewrites each name independently
and deterministically through normName, so the output names are
exactly the normalised input names; they are pairwise distinct
whenever the normalised input names are (collisions, when present,
are simply kept).  The concrete rewrite of the spec example also
holds. -/
theorem claim_C7_names :
    (∀ t : Table, (t.map (fun c => normName c.name)).Nodup →
        ((clean_column_names t).map Col.name).Nodup)
    ∧ (∀ t : Table, (clean_column_names t).map Col.name = t.map (fun c => normName c.name))
    ∧ normName "Full Name " = "Full_Name" := by
  have hmap : ∀ t : Table,
      (clean_column_names t).map Col.name = t.map (fun c => normName c.name) := by
    intro t
    rw [clean_column_names, List.map_map]
    rfl
  exact ⟨fun t h => by rw [hmap t]; exact h, hmap, by decide⟩

/-- Witness for C7: a table whose two normalised names are distinct
keeps distinct names. -/
theorem claim_C7_witness :
    ((clean_column_names [⟨"Full Name ", .obj, []⟩, ⟨"x", .num, []⟩]).map Col.name).Nodup :=
  claim_C7_names.1 [⟨"Full Name ", .obj, []⟩, ⟨"x", .num, []⟩] (by decide)

/-! ## Claim C10: text cleaning stringifies missing markers -/

/-- C10: clean_text_columns stringifies a missing cell of a textual
column into the literal string nan, which is then processed exactly
like any other cell, and the resulting object columns carry no
missing marker at all for the later stages. -/
theorem claim_C10_nan :
    (∀ name : String, cleanCell name .missing = cleanCell name (.str "nan"))
    ∧ (∀ (name : String) (x : Cell), cleanCell name x ≠ .missing)
    ∧ (∀ t t' : Table, clean_text_columns t = .ok t' →
        ∀ c' ∈ t', c'.dtype = .obj → ∀ x ∈ c'.cells, x ≠ .missing) := by
  have hshape : ∀ (name : String) (x : Cell), cleanCell name x ≠ .missing := by
    intro name x
    simp [cleanCell]
  refine ⟨fun _ => rfl, hshape, ?_⟩
  intro t t' h c' hc' hdt x hx
  rw [clean_text_columns] at h
  by_cases hd : hasObjDupName t
  · rw [if_pos hd] at h; exact absurd h (by simp)
  · rw [if_neg hd] at h
    injection h with h
    rw [← h] at hc'
    obtain ⟨c, hc, hcc⟩ := List.mem_map.mp hc'
    rw [cleanTextCol] at hcc
    by_cases hobj : c.dtype = .obj
    · rw [if_pos hobj] at hcc
      rw [← hcc] at hx
      obtain ⟨y, _, hy⟩ := List.mem_map.mp hx
      rw [← hy]
      exact hshape c.name y
    · rw [if_neg hobj] at hcc
      rw [← hcc] at hdt
      exact absurd hdt hobj

/-- Witness for C10: the cleaned missing cell of a concrete column is
the non-missing string nan. -/
theorem claim_C10_witness : (Cell.str "nan") ≠ Cell.missing :=
  claim_C10_nan.2.2 [⟨"A", .obj, [.missing]⟩] [⟨"A", .obj, [.str "nan"]⟩] (by decide)
    ⟨"A", .obj, [.str "nan"]⟩ (by decide) rfl (Cell.str "nan") (by decide)

/-! ## Claim C6: date grammar priority -/

theorem firstFmt_eq_of_first_success :
    ∀ (fs : List (List FmtTok)) (l : List Char) (i : Nat) (f : List FmtTok) (v : VDate),
      fs[i]? = some f → runFmt f l = some v →
      (∀ j, j < i → ∀ g, fs[j]? = some g → runFmt g l = none) →
      firstFmt fs l = some v := by
  intro fs
  induction fs with
  | nil => intro l i f v hget; simp at hget
  | cons a as ih =>
    intro l i f v hget hrun hprev
    cases i with
    | zero =>
      simp only [List.getElem?_cons_zero] at hget
      injection hget with hget
      subst hget
      simp [firstFmt, hrun]
    | succ n =>
      have h0 : runFmt a l = none := hprev 0 (Nat.succ_pos n) a (by simp)
      simp only [List.getElem?_cons_succ] at hget
      simp only [firstFmt, h0]
      exact ih l n f v hget hrun (fun j hj g hg => hprev (j + 1) (by omega) g (by simpa using hg))

/-- The concrete first of February 2023. -/
def dFeb2023 : VDate := ⟨⟨2023, 2, 1⟩, by decide⟩

/-- C6: tryFormats tries the nine grammars of knownFormats in their
fixed order and the first grammar that parses wins; in particular the
ambiguous cell 01-02-2023 is resolved by the first-listed DD-MM-YYYY
grammar to February 1, 2023 and canonicalised to 2023-02-01 rather
than being read month-first. -/
theorem claim_C6_priority :
    (∀ (l : List Char) (i : Nat) (f : List FmtTok) (v : VDate),
        knownFormats[i]? = some f → runFmt f l = some v →
        (∀ j, j < i → ∀ g, knownFormats[j]? = some g → runFmt g l = none) →
        tryFormats l = some v)
    ∧ tryFormats "01-02-2023".data = some dFeb2023
    ∧ dateCellParse (fun _ => none) (.str "01-02-2023") = .str "2023-02-01" := by
  refine ⟨?_, by decide, by decide⟩
  intro l i f v hget hrun hprev
  exact firstFmt_eq_of_first_success knownFormats l i f v hget hrun hprev

/-- Witness for C6: the first grammar parses 01-02-2023, with the
earlier-grammar hypothesis vacuous at index zero. -/
theorem claim_C6_witness : tryFormats "01-02-2023".data = some dFeb2023 :=
  claim_C6_priority.1 "01-02-2023".data 0
    [.dayTok, .lit '-', .monNum, .lit '-', .year4] dFeb2023 rfl (by decide)
    (fun j hj => absurd hj (by omega))

/-! ## Claim C3: the date normalizer dichotomy -/

theorem digitChar_isDigit {n : Nat} (h : n < 10) : (Nat.digitChar n).isDigit = true := by
  interval_cases n <;> decide

theorem strftimeISO_isISO (v : VDate) : isISO (strftimeISO v) = true := by
  have h4 : ∀ n : Nat, (Nat.digitChar (n % 10)).isDigit = true :=
    fun n => digitChar_isDigit (Nat.mod_lt n (by omega))
  simp [strftimeISO, isISO, pad4, pad2, h4]

/-- Every cell the date parser produces is either missing or the
canonical rendering of a validated date. -/
theorem dateCellParse_shape (fb : Cell → Option VDate) (x : Cell) :
    dateCellParse fb x = .missing ∨ ∃ v : VDate, dateCellParse fb x = .str (strftimeISO v) := by
  rw [dateCellParse]
  cases htry : tryFormats (stripL (strOfCell x).data) with
  | some v => exact Or.inr ⟨v, rfl⟩
  | none =>
    cases hfb : fb x with
    | some v => exact Or.inr ⟨v, rfl⟩
    | none => exact Or.inl rfl

/-- C3 (counterexample to the stated biconditional): on the column
holding the single cell 2023-02-01 the date normalizer commits a
rewrite that coincides byte-for-byte with the original column, yet
the cell did produce a non-missing parsed date — so being left
unchanged does not happen exactly when no cell parsed. -/
theorem claim_C3_cex :
    parse_date_columns (fun _ => none) [⟨"D", .obj, [.str "2023-02-01"]⟩] =
        .ok [⟨"D", .obj, [.str "2023-02-01"]⟩]
    ∧ ¬ (([Cell.str "2023-02-01"].map (dateCellParse (fun _ => none))).all
          (fun x => decide (x = Cell.missing)) = true) := by
  refine ⟨by decide, by decide⟩

/-- C3 (amended): whenever the date normalizer returns a table (it
raises AttributeError when any column label is duplicated, because
df[col].dtype is read on the DataFrame such a label selects; with all
labels distinct it always returns), it maps each column through the
per-column step, and a column is left unchanged whenever no cell of
it parsed to a non-missing date (and always when it is not textual);
in every case a column is either left completely unchanged or every
non-missing cell of the result is a string matching YYYY-MM-DD
exactly. -/
theorem claim_C3_dates :
    (∀ (fb : Cell → Option VDate) (t t' : Table),
        parse_date_columns fb t = .ok t' → t' = t.map (dateStep fb))
    ∧ (∀ (fb : Cell → Option VDate) (t : Table), hasDupName t = false →
        parse_date_columns fb t = .ok (t.map (dateStep fb)))
    ∧ (∀ (fb : Cell → Option VDate) (c : Col),
        (c.cells.map (dateCellParse fb)).all (fun x => decide (x = .missing)) = true →
        dateStep fb c = c)
    ∧ (∀ (fb : Cell → Option VDate) (c : Col), c.dtype ≠ .obj → dateStep fb c = c)
    ∧ (∀ (fb : Cell → Option VDate) (c : Col),
        dateStep fb c = c ∨
          ∀ x ∈ (dateStep fb c).cells, x ≠ .missing →
            ∃ s, x = .str s ∧ isISO s = true) := by
  have hnonobj : ∀ (fb : Cell → Option VDate) (c : Col), c.dtype ≠ .obj → dateStep fb c = c := by
    intro fb c h
    rw [dateStep, if_neg h]
  refine ⟨?_, ?_, ?_, hnonobj, ?_⟩
  · intro fb t t' h
    rw [parse_date_columns] at h
    by_cases hd : hasDupName t = true
    · rw [if_pos hd] at h
      exact absurd h (by simp)
    · rw [if_neg hd] at h
      injection h with h
      exact h.symm
  · intro fb t hd
    rw [parse_date_columns, if_neg (by simp [hd])]
  · intro fb c hall
    rw [dateStep]
    by_cases hobj : c.dtype = .obj
    · rw [if_pos hobj]
      have hany : (c.cells.map (dateCellParse fb)).any (fun x => decide (x ≠ .missing)) = false := by
        rw [List.any_eq_false]
        intro x hx
        have hx2 := List.all_eq_true.mp hall x hx
        simp only [decide_eq_true_eq] at hx2 ⊢
        simp [hx2]
      rw [hany]
      simp
    · rw [if_neg hobj]
  · intro fb c
    by_cases hobj : c.dtype = .obj
    · rw [dateStep, if_pos hobj]
      by_cases hany : (c.cells.map (dateCellParse fb)).any (fun x => decide (x ≠ .missing)) = true
      · rw [hany]
        refine Or.inr ?_
        intro x hx hxm
        obtain ⟨y, _, hy⟩ := List.mem_map.mp hx
        rcases dateCellParse_shape fb y with hsh | ⟨v, hsh⟩
        · rw [hy] at hsh; exact absurd hsh hxm
        · rw [hy] at hsh
          exact ⟨strftimeISO v, hsh.symm ▸ rfl, strftimeISO_isISO v⟩
      · rw [Bool.not_eq_true] at hany
        rw [hany]
        exact Or.inl rfl
    · exact Or.inl (hnonobj fb c hobj)

/-- Witness for C3: a single-column table has no duplicated label, so
the date normalizer returns the mapped table. -/
theorem claim_C3_witness :
    parse_date_columns (fun _ => none) [⟨"N", .num, [.num 1]⟩]
      = .ok ([⟨"N", .num, [.num 1]⟩].map (dateStep (fun _ => none))) :=
  claim_C3_dates.2.1 (fun _ => none) [⟨"N", .num, [.num 1]⟩] (by decide)


/-! ## Order facts for the mode tie-break -/

theorem lexLt_irrefl : ∀ a : List Char, lexLt a a = false := by
  intro a
  induction a with
  | nil => rfl
  | cons x xs ih => simp [lexLt, ih]

theorem lexLt_asymm : ∀ a b : List Char, lexLt a b = true → lexLt b a = false := by
  intro a
  induction a with
  | nil =>
    intro b h
    cases b with
    | nil => simp [lexLt] at h
    | cons y ys => simp [lexLt]
  | cons x xs ih =>
    intro b h
    cases b with
    | nil => simp [lexLt] at h
    | cons y ys =>
      simp only [lexLt] at h ⊢
      by_cases hxy : x.toNat < y.toNat
      · have hyx : ¬ y.toNat < x.toNat := by omega
        simp [hyx, hxy]
      · by_cases hyx : y.toNat < x.toNat
        · simp [hxy, hyx] at h
        · simp only [hxy, if_false, hyx, if_false] at h
          simp only [hyx, if_false, hxy, if_false]
          exact ih ys h

theorem lexLt_of_lt_of_nlt :
    ∀ (u s t : List Char), lexLt u s = true → lexLt t s = false → lexLt u t = true := by
  intro u
  induction u with
  | nil =>
    intro s t h1 h2
    cases s with
    | nil => simp [lexLt] at h1
    | cons y ys =>
      cases t with
      | nil => simp [lexLt] at h2
      | cons z zs => simp [lexLt]
  | cons a as ih =>
    intro s t h1 h2
    cases s with
    | nil => simp [lexLt] at h1
    | cons y ys =>
      cases t with
      | nil => simp [lexLt] at h2
      | cons z zs =>
        simp only [lexLt] at h1 h2 ⊢
        by_cases hzy : z.toNat < y.toNat
        · simp [hzy] at h2
        · by_cases hay : a.toNat < y.toNat
          · have haz : a.toNat < z.toNat := by omega
            simp [haz]
          · by_cases hya : y.toNat < a.toNat
            · simp [hay, hya] at h1
            · simp only [hay, if_false, hya, if_false] at h1
              by_cases hyz : y.toNat < z.toNat
              · have haz : a.toNat < z.toNat := by omega
                simp [haz]
              · have haz : ¬ a.toNat < z.toNat := by omega
                have hza : ¬ z.toNat < a.toNat := by omega
                simp only [hzy, if_false, hyz, if_false] at h2
                simp only [haz, if_false, hza, if_false]
                exact ih ys zs h1 h2

theorem strLe_refl (s : String) : strLe s s = true := by
  simp [strLe, lexLt_irrefl]

theorem strLe_total (s t : String) : strLe s t = true ∨ strLe t s = true := by
  by_cases h : lexLt t.data s.data = true
  · right
    simp only [strLe, Bool.not_eq_true']
    exact lexLt_asymm t.data s.data h
  · left
    simp only [strLe, Bool.not_eq_true']
    rw [Bool.not_eq_true] at h
    exact h

theorem strLe_trans {s t u : String} (h1 : strLe s t = true) (h2 : strLe t u = true) :
    strLe s u = true := by
  simp only [strLe, Bool.not_eq_true'] at h1 h2 ⊢
  by_cases h : lexLt u.data s.data = true
  · have := lexLt_of_lt_of_nlt u.data s.data t.data h h1
    rw [this] at h2
    exact absurd h2 (by simp)
  · rw [Bool.not_eq_true] at h
    exact h

/-- Cells that are plain strings, the shape of every non-missing cell
of a textual column. -/
def isStrCell (x : Cell) : Prop := ∃ s, x = Cell.str s

theorem cellLe_refl_str {a : Cell} (ha : isStrCell a) : cellLe a a = true := by
  obtain ⟨s, rfl⟩ := ha
  simp [cellLe, strLe_refl]

theorem cellLe_total_str {a b : Cell} (ha : isStrCell a) (hb : isStrCell b) :
    cellLe a b = true ∨ cellLe b a = true := by
  obtain ⟨s, rfl⟩ := ha
  obtain ⟨t, rfl⟩ := hb
  simpa [cellLe] using strLe_total s t

theorem cellLe_trans_str {a b c : Cell} (ha : isStrCell a) (hb : isStrCell b)
    (hc : isStrCell c) (h1 : cellLe a b = true) (h2 : cellLe b c = true) :
    cellLe a c = true := by
  obtain ⟨s, rfl⟩ := ha
  obtain ⟨t, rfl⟩ := hb
  obtain ⟨u, rfl⟩ := hc
  simp only [cellLe] at h1 h2 ⊢
  exact strLe_trans h1 h2

/-! ## Minimum and maximal frequency -/

theorem foldlMin_mem (xs : List Cell) : ∀ x : Cell,
    xs.foldl (fun a y => if cellLe a y then a else y) x ∈ x :: xs := by
  induction xs with
  | nil => intro x; simp [List.foldl]
  | cons y ys ih =>
    intro x
    simp only [List.foldl]
    rcases List.mem_cons.mp (ih (if cellLe x y then x else y)) with h | h
    · rw [h]
      by_cases hc : cellLe x y = true
      · rw [if_pos hc]; simp
      · rw [if_neg hc]; simp
    · simp [h]

theorem foldlMin_le (xs : List Cell) : ∀ x : Cell,
    (∀ y ∈ x :: xs, isStrCell y) →
    ∀ u ∈ x :: xs, cellLe (xs.foldl (fun a y => if cellLe a y then a else y) x) u = true := by
  induction xs with
  | nil =>
    intro x hstr u hu
    rcases List.mem_cons.mp hu with rfl | hu
    · exact cellLe_refl_str (hstr u (by simp))
    · simp at hu
  | cons y ys ih =>
    intro x hstr u hu
    have hx : isStrCell x := hstr x (by simp)
    have hy : isStrCell y := hstr y (by simp)
    have hm : isStrCell (if cellLe x y then x else y) := by
      by_cases hc : cellLe x y = true
      · rw [if_pos hc]; exact hx
      · rw [if_neg hc]; exact hy
    have hstr2 : ∀ z ∈ (if cellLe x y then x else y) :: ys, isStrCell z := by
      intro z hz
      rcases List.mem_cons.mp hz with rfl | hz
      · exact hm
      · exact hstr z (by simp [hz])
    have hIH := ih (if cellLe x y then x else y) hstr2
    have hMm : cellLe (ys.foldl (fun a y => if cellLe a y then a else y)
        (if cellLe x y then x else y)) (if cellLe x y then x else y) = true :=
      hIH _ (by simp)
    have hMstr : isStrCell (ys.foldl (fun a y => if cellLe a y then a else y)
        (if cellLe x y then x else y)) := by
      rcases List.mem_cons.mp (foldlMin_mem ys (if cellLe x y then x else y)) with h | h
      · rw [h]; exact hm
      · exact hstr2 _ (by simp [h])
    have hmx : cellLe (if cellLe x y then x else y) x = true := by
      by_cases hc : cellLe x y = true
      · rw [if_pos hc]; exact cellLe_refl_str hx
      · rw [if_neg hc]
        rcases cellLe_total_str hx hy with h | h
        · exact absurd h (by simpa using hc)
        · exact h
    have hmy : cellLe (if cellLe x y then x else y) y = true := by
      by_cases hc : cellLe x y = true
      · rw [if_pos hc]; exact hc
      · rw [if_neg hc]; exact cellLe_refl_str hy
    simp only [List.foldl]
    rcases List.mem_cons.mp hu with rfl | hu
    · exact cellLe_trans_str hMstr hm hx hMm hmx
    · rcases List.mem_cons.mp hu with rfl | hu
      · exact cellLe_trans_str hMstr hm hy hMm hmy
      · exact hIH u (by simp [hu])

theorem foldl_max_init_le (f : Cell → Nat) :
    ∀ (l : List Cell) (i : Nat), i ≤ l.foldl (fun a v => max a (f v)) i := by
  intro l
  induction l with
  | nil => intro i; simp [List.foldl]
  | cons x xs ih =>
    intro i
    simp only [List.foldl]
    exact le_trans (Nat.le_max_left i (f x)) (ih (max i (f x)))

theorem foldl_max_mem_le (f : Cell → Nat) :
    ∀ (l : List Cell) (i : Nat) (v : Cell), v ∈ l →
      f v ≤ l.foldl (fun a v => max a (f v)) i := by
  intro l
  induction l with
  | nil => intro i v hv; simp at hv
  | cons x xs ih =>
    intro i v hv
    simp only [List.foldl]
    rcases List.mem_cons.mp hv with rfl | hv
    · exact le_trans (Nat.le_max_right i (f v)) (foldl_max_init_le f xs (max i (f v)))
    · exact ih (max i (f x)) v hv

theorem foldl_max_attained (f : Cell → Nat) :
    ∀ (l : List Cell) (i : Nat),
      l.foldl (fun a v => max a (f v)) i = i ∨
        ∃ v ∈ l, l.foldl (fun a v => max a (f v)) i = f v := by
  intro l
  induction l with
  | nil => intro i; exact Or.inl rfl
  | cons x xs ih =>
    intro i
    simp only [List.foldl]
    rcases ih (max i (f x)) with h | ⟨v, hv, h⟩
    · rcases Nat.le_total (f x) i with hle | hle
      · exact Or.inl (h.trans (Nat.max_eq_left hle))
      · exact Or.inr ⟨x, by simp, h.trans (Nat.max_eq_right hle)⟩
    · exact Or.inr ⟨v, by simp [hv], h⟩

theorem maxFreq_le {l : List Cell} {v : Cell} (hv : v ∈ l) : freqIn l v ≤ maxFreq l :=
  foldl_max_mem_le (freqIn l) l 0 v hv

theorem maxFreq_attained {l : List Cell} (h : l ≠ []) :
    ∃ v ∈ l, freqIn l v = maxFreq l := by
  rcases foldl_max_attained (freqIn l) l 0 with h0 | ⟨v, hv, heq⟩
  · cases l with
    | nil => exact absurd rfl h
    | cons x xs =>
      have h1 : 0 < freqIn (x :: xs) x := by
        rw [freqIn]
        rw [List.countP_pos_iff]
        exact ⟨x, by simp⟩
      have h2 := maxFreq_le (l := x :: xs) (v := x) (by simp)
      rw [maxFreq] at h2
      omega
  · exact ⟨v, hv, heq.symm⟩

theorem modeMin_isSome {l : List Cell} (h : l ≠ []) : ∃ v, modeMin l = some v := by
  obtain ⟨v0, hv0, hfreq⟩ := maxFreq_attained h
  have hmem : v0 ∈ l.filter (fun v => decide (freqIn l v = maxFreq l)) :=
    List.mem_filter.mpr ⟨hv0, by simp [hfreq]⟩
  rw [modeMin]
  cases hf : l.filter (fun v => decide (freqIn l v = maxFreq l)) with
  | nil => rw [hf] at hmem; simp at hmem
  | cons a as => exact ⟨_, rfl⟩

theorem minByLe_mem {l : List Cell} {v : Cell} (h : minByLe l = some v) : v ∈ l := by
  cases l with
  | nil => simp [minByLe] at h
  | cons x xs =>
    rw [minByLe] at h
    injection h with h
    rw [← h]
    exact foldlMin_mem xs x

/-- Characterisation of the pandas mode head: a member of the list
attaining the maximal multiplicity, and, on a list of strings, least
in sort order among all values attaining it. -/
theorem modeMin_spec {l : List Cell} {v : Cell} (h : modeMin l = some v) :
    v ∈ l ∧ freqIn l v = maxFreq l ∧
      ((∀ x ∈ l, isStrCell x) →
        ∀ u ∈ l, freqIn l u = maxFreq l → cellLe v u = true) := by
  have hmem := minByLe_mem h
  have hfl := List.mem_filter.mp hmem
  refine ⟨hfl.1, by simpa using hfl.2, ?_⟩
  intro hstr u hu hufreq
  have humem : u ∈ l.filter (fun v => decide (freqIn l v = maxFreq l)) :=
    List.mem_filter.mpr ⟨hu, by simp [hufreq]⟩
  rw [modeMin] at h
  cases hf : l.filter (fun v => decide (freqIn l v = maxFreq l)) with
  | nil => rw [hf] at humem; simp at humem
  | cons a as =>
    rw [hf] at h humem
    rw [minByLe] at h
    injection h with h
    rw [← h]
    refine foldlMin_le as a ?_ u humem
    intro y hy
    rw [← hf] at hy
    exact hstr y (List.mem_filter.mp hy).1

/-! ## Claims C4 and C8: missing-value imputation -/

theorem colImpute_ok_cases {th : Flt} {c c' : Col} (h : colImpute th c = .ok c') :
    (colGuard th c = false → c' = c)
    ∧ (colGuard th c = true → c.dtype = .obj →
        ∃ v, modeMin (nonMissing c.cells) = some v ∧
          c' = { c with cells := fillMissing v c.cells })
    ∧ (colGuard th c = true → c.dtype = .num →
        c' = (match medianOf (ratsOf c.cells) with
              | none => c
              | some q => { c with cells := fillMissing (.num q) c.cells })) := by
  obtain ⟨nm, dt, cl⟩ := c
  by_cases hg : colGuard th ⟨nm, dt, cl⟩ = true
  · rw [colImpute, if_pos hg] at h
    cases dt with
    | obj =>
      refine ⟨fun hf => absurd hg (by simp [hf]), ?_, fun _ hdt => by simp at hdt⟩
      intro _ _
      cases hm : modeMin (nonMissing cl) with
      | none =>
        rw [hm] at h
        exact absurd h (by simp)
      | some v =>
        rw [hm] at h
        injection h with h
        exact ⟨v, rfl, h.symm⟩
    | num =>
      refine ⟨fun hf => absurd hg (by simp [hf]), fun _ hdt => by simp at hdt, ?_⟩
      intro _ _
      cases hmed : medianOf (ratsOf cl) with
      | none =>
        rw [hmed] at h
        injection h with h
        exact h.symm
      | some q =>
        rw [hmed] at h
        injection h with h
        exact h.symm
  · rw [colImpute, if_neg hg] at h
    injection h with h
    rw [Bool.not_eq_true] at hg
    exact ⟨fun _ => h.symm, fun ht => absurd ht (by simp [hg]),
      fun ht => absurd ht (by simp [hg])⟩

theorem colImpute_frame {th : Flt} {c c' : Col} (h : colImpute th c = .ok c') :
    c'.name = c.name ∧ c'.dtype = c.dtype ∧ c'.cells.length = c.cells.length ∧
      (c' ≠ c → colGuard th c = true) := by
  obtain ⟨nm, dt, cl⟩ := c
  obtain ⟨h1, h2, h3⟩ := colImpute_ok_cases h
  by_cases hg : colGuard th ⟨nm, dt, cl⟩ = true
  · cases dt with
    | obj =>
      obtain ⟨v, _, hc'⟩ := h2 hg rfl
      rw [hc']
      exact ⟨rfl, rfl, by simp [fillMissing], fun _ => hg⟩
    | num =>
      have hc' := h3 hg rfl
      cases hmed : medianOf (ratsOf cl) with
      | none =>
        rw [hmed] at hc'
        rw [hc']
        exact ⟨rfl, rfl, rfl, fun _ => hg⟩
      | some q =>
        rw [hmed] at hc'
        rw [hc']
        exact ⟨rfl, rfl, by simp [fillMissing], fun _ => hg⟩
  · have := h1 (by simpa using hg)
    rw [this]
    exact ⟨rfl, rfl, rfl, fun hne => absurd rfl hne⟩

/-- C8 (counterexample): at threshold 1.0 a textual column that is
entirely missing passes the guard, its mode is empty, and iloc[0]
raises IndexError — impute_missing does not return a table at all for
this input, refuting the claim for every table and threshold. -/
theorem claim_C8_cex :
    handle_missing_values [⟨"A", .obj, [.missing]⟩] 1 = .error "IndexError" := by rfl

/-- C8 (amended): whenever handle_missing_values succeeds (it can
only fail on duplicate column labels or an all-missing textual column
at or under the threshold), it preserves the column count, every
surviving column keeps its name, dtype and cell count (hence the row
count), and a column whose cells changed at all lies at or under the
missingness threshold. -/
theorem claim_C8_frame :
    ∀ (t : Table) (th : Flt) (t' : Table),
      handle_missing_values t th = .ok t' →
      t'.length = t.length ∧
        List.Forall₂ (fun c c' : Col =>
          c'.name = c.name ∧ c'.dtype = c.dtype ∧ c'.cells.length = c.cells.length ∧
            (c' ≠ c → colGuard th c = true)) t t' := by
  intro t th t' h
  rw [handle_missing_values] at h
  by_cases hd : hasDupName t = true
  · rw [if_pos hd] at h; exact absurd h (by simp)
  · rw [if_neg hd] at h
    have hf := exMapM_ok_forall2 (colImpute th) t t' h
    refine ⟨(List.Forall₂.length_eq hf).symm, ?_⟩
    exact List.Forall₂.imp (fun c c' hcc => colImpute_frame hcc) hf

/-- Witness for C8: a concrete numeric column under the threshold is
imputed with its median and the frame conditions hold. -/
theorem claim_C8_witness :
    ([⟨"N", .num, [.num 1, .num 3, .missing]⟩] : Table).length =
        ([⟨"N", .num, [.num 1, .num 3, .num 2]⟩] : Table).length ∧
      List.Forall₂ (fun c c' : Col =>
        c'.name = c.name ∧ c'.dtype = c.dtype ∧ c'.cells.length = c.cells.length ∧
          (c' ≠ c → colGuard 1 c = true))
        [⟨"N", .num, [.num 1, .num 3, .missing]⟩] [⟨"N", .num, [.num 1, .num 3, .num 2]⟩] := by
  have h := claim_C8_frame [⟨"N", .num, [.num 1, .num 3, .missing]⟩] 1
    [⟨"N", .num, [.num 1, .num 3, .num 2]⟩] (by rfl)
  exact ⟨h.1.symm ▸ rfl, h.2⟩

/-- Modelled from the spec: the tie-break the claim asserts for the
textual mode — the most frequent non-missing value with ties broken
by first occurrence order in the column. -/
def modeFirstOccurrence (l : List Cell) : Option Cell :=
  l.find? (fun v => decide (freqIn l v = maxFreq l))

/-- C4 (counterexample): on the column [b, a, missing] at the default
threshold both b and a are most frequent; the claimed first-occurrence
tie-break picks b, but the code (Series.mode sorts its result
ascending before iloc[0]) fills with a. -/
theorem claim_C4_cex :
    handle_missing_values [⟨"X", .obj, [.str "b", .str "a", .missing]⟩] defaultThreshold
        = .ok [⟨"X", .obj, [.str "b", .str "a", .str "a"]⟩]
    ∧ modeFirstOccurrence (nonMissing [Cell.str "b", Cell.str "a", Cell.missing])
        = some (Cell.str "b")
    ∧ Cell.str "a" ≠ Cell.str "b" :=
  ⟨by rfl, by rfl, by decide⟩

/-- C4 (amended): whenever impute_missing succeeds, a column at or
under the threshold is filled as follows — a textual (object) column
has each missing cell replaced by a most frequent non-missing value,
ties in frequency broken by the ascending sort order pandas applies
to the mode (for string columns, lexicographic order), and a numeric
column has each missing cell replaced by the median of the non-missing
values (no change when every cell is missing, the NaN median); columns
over the threshold keep all their missing markers (they are unchanged
entirely). -/
theorem claim_C4_impute :
    ∀ (t : Table) (th : Flt) (t' : Table),
      handle_missing_values t th = .ok t' →
      List.Forall₂ (fun c c' : Col =>
        (colGuard th c = false → c' = c) ∧
        (colGuard th c = true → c.dtype = .obj →
          ∃ v, c' = { c with cells := fillMissing v c.cells } ∧
            v ∈ nonMissing c.cells ∧
            (∀ u ∈ nonMissing c.cells,
              freqIn (nonMissing c.cells) u ≤ freqIn (nonMissing c.cells) v) ∧
            ((∀ x ∈ nonMissing c.cells, isStrCell x) →
              ∀ u ∈ nonMissing c.cells,
                freqIn (nonMissing c.cells) u = freqIn (nonMissing c.cells) v →
                  cellLe v u = true)) ∧
        (colGuard th c = true → c.dtype = .num →
          c' = (match medianOf (ratsOf c.cells) with
                | none => c
                | some q => { c with cells := fillMissing (.num q) c.cells }))) t t' := by
  intro t th t' h
  rw [handle_missing_values] at h
  by_cases hd : hasDupName t = true
  · rw [if_pos hd] at h; exact absurd h (by simp)
  · rw [if_neg hd] at h
    have hf := exMapM_ok_forall2 (colImpute th) t t' h
    refine List.Forall₂.imp ?_ hf
    intro c c' hcc
    obtain ⟨h1, h2, h3⟩ := colImpute_ok_cases hcc
    refine ⟨h1, ?_, h3⟩
    intro hg hdt
    obtain ⟨v, hmode, hc'⟩ := h2 hg hdt
    obtain ⟨hvmem, hvfreq, hvmin⟩ := modeMin_spec hmode
    refine ⟨v, hc', hvmem, ?_, ?_⟩
    · intro u hu
      rw [hvfreq]
      exact maxFreq_le hu
    · intro hstr u hu hufreq
      exact hvmin hstr u hu (by rw [hufreq, hvfreq])

/-- Witness for C4: a concrete textual column with an unambiguous
mode is filled with it. -/
theorem claim_C4_witness :
    List.Forall₂ (fun c c' : Col =>
      (colGuard defaultThreshold c = false → c' = c) ∧
      (colGuard defaultThreshold c = true → c.dtype = .obj →
        ∃ v, c' = { c with cells := fillMissing v c.cells } ∧
          v ∈ nonMissing c.cells ∧
          (∀ u ∈ nonMissing c.cells,
            freqIn (nonMissing c.cells) u ≤ freqIn (nonMissing c.cells) v) ∧
          ((∀ x ∈ nonMissing c.cells, isStrCell x) →
            ∀ u ∈ nonMissing c.cells,
              freqIn (nonMissing c.cells) u = freqIn (nonMissing c.cells) v →
                cellLe v u = true)) ∧
      (colGuard defaultThreshold c = true → c.dtype = .num →
        c' = (match medianOf (ratsOf c.cells) with
              | none => c
              | some q => { c with cells := fillMissing (.num q) c.cells })))
      [⟨"X", .obj, [.str "a", .str "a", .missing]⟩]
      [⟨"X", .obj, [.str "a", .str "a", .str "a"]⟩] :=
  claim_C4_impute [⟨"X", .obj, [.str "a", .str "a", .missing]⟩] defaultThreshold
    [⟨"X", .obj, [.str "a", .str "a", .str "a"]⟩] (by rfl)

/-! ## Claim C9: deduplication is idempotent -/

/-- Number of kept positions of a mask. -/
def countT (m : List Bool) : Nat := m.countP (fun b => b)

theorem applyMask_length {α : Type} :
    ∀ (m : List Bool) (l : List α), m.length = l.length →
      (applyMask m l).length = countT m := by
  intro m
  induction m with
  | nil =>
    intro l h
    cases l with
    | nil => rfl
    | cons x xs => simp at h
  | cons b bs ih =>
    intro l h
    cases l with
    | nil => simp at h
    | cons x xs =>
      simp only [List.length_cons, Nat.succ.injEq] at h
      by_cases hb : b = true
      · subst hb
        have heq : applyMask (true :: bs) (x :: xs) = x :: applyMask bs xs := rfl
        rw [heq, List.length_cons, ih xs h]
        simp [countT, List.countP_cons]
      · rw [Bool.not_eq_true] at hb
        subst hb
        have heq : applyMask (false :: bs) (x :: xs) = applyMask bs xs := rfl
        rw [heq, ih xs h]
        simp [countT, List.countP_cons]

theorem applyMask_all_true {α : Type} :
    ∀ l : List α, applyMask (List.replicate l.length true) l = l := by
  intro l
  induction l with
  | nil => rfl
  | cons x xs ih => simp [applyMask, List.replicate, ih]

theorem toRowsN_length : ∀ (n : Nat) (cols : List (List Cell)), (toRowsN n cols).length = n := by
  intro n
  induction n with
  | zero => intro cols; rfl
  | succ k ih => intro cols; simp [toRowsN, ih]

theorem maskDup_length : ∀ (rs : List (List Cell)) (seen : List (List Cell)),
    (maskDup seen rs).length = rs.length := by
  intro rs
  induction rs with
  | nil => intro seen; rfl
  | cons r rest ih =>
    intro seen
    rw [maskDup]
    by_cases h : r ∈ seen
    · rw [if_pos h]; simp [ih]
    · rw [if_neg h]; simp [ih]

/-- The filtered survivors of the keep-first scan. -/
def dedupSeen (seen : List (List Cell)) : List (List Cell) → List (List Cell)
  | [] => []
  | r :: rs => if r ∈ seen then dedupSeen seen rs else r :: dedupSeen (r :: seen) rs

theorem applyMask_maskDup : ∀ (rs seen : List (List Cell)),
    applyMask (maskDup seen rs) rs = dedupSeen seen rs := by
  intro rs
  induction rs with
  | nil => intro seen; rfl
  | cons r rest ih =>
    intro seen
    rw [maskDup, dedupSeen]
    by_cases h : r ∈ seen
    · rw [if_pos h, if_pos h]
      simp [applyMask, ih]
    · rw [if_neg h, if_neg h]
      simp [applyMask, ih]

theorem dedupSeen_not_mem_seen : ∀ (rs seen : List (List Cell)),
    ∀ x ∈ dedupSeen seen rs, x ∉ seen := by
  intro rs
  induction rs with
  | nil => intro seen x hx; simp [dedupSeen] at hx
  | cons r rest ih =>
    intro seen x hx
    rw [dedupSeen] at hx
    by_cases h : r ∈ seen
    · rw [if_pos h] at hx
      exact ih seen x hx
    · rw [if_neg h] at hx
      rcases List.mem_cons.mp hx with rfl | hx
      · exact h
      · have h2 := ih (r :: seen) x hx
        exact fun hmem => h2 (List.mem_cons.mpr (Or.inr hmem))

theorem dedupSeen_nodup : ∀ (rs seen : List (List Cell)), (dedupSeen seen rs).Nodup := by
  intro rs
  induction rs with
  | nil => intro seen; simp [dedupSeen]
  | cons r rest ih =>
    intro seen
    rw [dedupSeen]
    by_cases h : r ∈ seen
    · rw [if_pos h]; exact ih seen
    · rw [if_neg h]
      refine List.nodup_cons.mpr ⟨?_, ih (r :: seen)⟩
      intro hmem
      exact dedupSeen_not_mem_seen rest (r :: seen) r hmem (List.mem_cons.mpr (Or.inl rfl))

theorem maskDup_all_true : ∀ (rs seen : List (List Cell)), rs.Nodup →
    (∀ x ∈ rs, x ∉ seen) → maskDup seen rs = List.replicate rs.length true := by
  intro rs
  induction rs with
  | nil => intro seen _ _; rfl
  | cons r rest ih =>
    intro seen hnd hdisj
    rw [maskDup, if_neg (hdisj r (by simp))]
    rw [List.length_cons, List.replicate]
    congr 1
    refine ih (r :: seen) (List.nodup_cons.mp hnd).2 ?_
    intro x hx
    intro hmem
    rcases List.mem_cons.mp hmem with rfl | hmem
    · exact (List.nodup_cons.mp hnd).1 hx
    · exact hdisj x (by simp [hx]) hmem

theorem toRowsN_applyMask :
    ∀ (m : List Bool) (n : Nat) (cols : List (List Cell)),
      m.length = n → (∀ col ∈ cols, col.length = n) →
      toRowsN (countT m) (cols.map (applyMask m)) = applyMask m (toRowsN n cols) := by
  intro m
  induction m with
  | nil =>
    intro n cols hlen _
    rw [← hlen]
    rfl
  | cons b bs ih =>
    intro n cols hlen hcols
    cases n with
    | zero => simp at hlen
    | succ k =>
      simp only [List.length_cons, Nat.succ.injEq] at hlen
      have hhead : ∀ col ∈ cols, ∃ x xs, col = x :: xs ∧ xs.length = k := by
        intro col hcol
        cases col with
        | nil => have := hcols [] hcol; simp at this
        | cons x xs =>
          refine ⟨x, xs, rfl, ?_⟩
          have := hcols (x :: xs) hcol
          simpa using this
      by_cases hb : b = true
      · subst hb
        have hmask : ∀ col ∈ cols, applyMask (true :: bs) col = headCell col :: applyMask bs col.tail := by
          intro col hcol
          obtain ⟨x, xs, rfl, _⟩ := hhead col hcol
          simp [applyMask, headCell]
        have hstep : cols.map (applyMask (true :: bs)) =
            (cols.map (fun col => headCell col :: applyMask bs col.tail)) :=
          List.map_congr_left hmask
        have hct : countT (true :: bs) = countT bs + 1 := by
          simp [countT, List.countP_cons]
        rw [hct, hstep]
        rw [toRowsN]
        have hheads : (cols.map (fun col => headCell col :: applyMask bs col.tail)).map headCell
            = cols.map headCell := by
          rw [List.map_map]
          exact List.map_congr_left (fun col _ => by simp [headCell])
        have htails : (cols.map (fun col => headCell col :: applyMask bs col.tail)).map List.tail
            = (cols.map List.tail).map (applyMask bs) := by
          rw [List.map_map, List.map_map]
          exact List.map_congr_left (fun col _ => by simp)
        rw [hheads, htails]
        have htl : ∀ col ∈ cols.map List.tail, col.length = k := by
          intro col hcol
          obtain ⟨c0, hc0, rfl⟩ := List.mem_map.mp hcol
          obtain ⟨x, xs, rfl, hxs⟩ := hhead c0 hc0
          simpa using hxs
        rw [ih k (cols.map List.tail) hlen htl]
        rw [toRowsN]
        simp [applyMask]
      · rw [Bool.not_eq_true] at hb
        subst hb
        have hmask : ∀ col ∈ cols, applyMask (false :: bs) col = applyMask bs col.tail := by
          intro col hcol
          obtain ⟨x, xs, rfl, _⟩ := hhead col hcol
          simp [applyMask]
        have hstep : cols.map (applyMask (false :: bs)) =
            (cols.map List.tail).map (applyMask bs) := by
          rw [List.map_map]
          exact List.map_congr_left (fun col hcol => hmask col hcol)
        have hct : countT (false :: bs) = countT bs := by
          simp [countT, List.countP_cons]
        rw [hct, hstep]
        have htl : ∀ col ∈ cols.map List.tail, col.length = k := by
          intro col hcol
          obtain ⟨c0, hc0, rfl⟩ := List.mem_map.mp hcol
          obtain ⟨x, xs, rfl, hxs⟩ := hhead c0 hc0
          simpa using hxs
        rw [ih k (cols.map List.tail) hlen htl]
        rw [toRowsN]
        simp [applyMask]

theorem map_id_of_mem {α : Type} (f : α → α) :
    ∀ l : List α, (∀ c ∈ l, f c = c) → l.map f = l := by
  intro l
  induction l with
  | nil => intro _; rfl
  | cons x xs ih =>
    intro h
    rw [List.map_cons, h x (by simp), ih (fun c hc => h c (by simp [hc]))]

theorem rowsOf_remove_duplicates (t : Table) (hwf : ∀ c ∈ t, c.cells.length = nRows t) :
    rowsOf (remove_duplicates t) = dedupSeen [] (rowsOf t) := by
  cases t with
  | nil => rfl
  | cons c0 rest =>
    have hmlen : (maskDup [] (rowsOf (c0 :: rest))).length = nRows (c0 :: rest) := by
      rw [maskDup_length, rowsOf, toRowsN_length]
    have hremove : remove_duplicates (c0 :: rest) = (c0 :: rest).map (fun c =>
        { c with cells := applyMask (maskDup [] (rowsOf (c0 :: rest))) c.cells }) := rfl
    rw [hremove, rowsOf]
    have hnr : nRows ((c0 :: rest).map (fun c =>
        { c with cells := applyMask (maskDup [] (rowsOf (c0 :: rest))) c.cells })) =
        countT (maskDup [] (rowsOf (c0 :: rest))) := by
      show (applyMask (maskDup [] (rowsOf (c0 :: rest))) c0.cells).length = _
      exact applyMask_length _ c0.cells (by rw [hmlen, hwf c0 (by simp)])
    rw [hnr]
    have hcols : ((c0 :: rest).map (fun c =>
        { c with cells := applyMask (maskDup [] (rowsOf (c0 :: rest))) c.cells })).map Col.cells
        = ((c0 :: rest).map Col.cells).map (applyMask (maskDup [] (rowsOf (c0 :: rest)))) := by
      rw [List.map_map, List.map_map]
      rfl
    rw [hcols]
    rw [toRowsN_applyMask _ (nRows (c0 :: rest)) _ hmlen
      (fun col hcol => by obtain ⟨c, hc, rfl⟩ := List.mem_map.mp hcol; exact hwf c hc)]
    exact applyMask_maskDup (rowsOf (c0 :: rest)) []

theorem remove_duplicates_uniform (t : Table) (hwf : ∀ c ∈ t, c.cells.length = nRows t) :
    ∀ c ∈ remove_duplicates t, c.cells.length = nRows (remove_duplicates t) := by
  cases t with
  | nil => intro c hc; simp [remove_duplicates] at hc
  | cons c0 rest =>
    intro c' hc'
    have hmlen : (maskDup [] (rowsOf (c0 :: rest))).length = nRows (c0 :: rest) := by
      rw [maskDup_length, rowsOf, toRowsN_length]
    have hrd : remove_duplicates (c0 :: rest) = (c0 :: rest).map (fun c =>
        { c with cells := applyMask (maskDup [] (rowsOf (c0 :: rest))) c.cells }) := rfl
    rw [hrd] at hc'
    obtain ⟨c, hc, rfl⟩ := List.mem_map.mp hc'
    have h2 : nRows (remove_duplicates (c0 :: rest))
        = countT (maskDup [] (rowsOf (c0 :: rest))) := by
      rw [hrd]
      show (applyMask (maskDup [] (rowsOf (c0 :: rest))) c0.cells).length = _
      exact applyMask_length _ c0.cells (by rw [hmlen, hwf c0 (by simp)])
    rw [h2]
    exact applyMask_length _ c.cells (by rw [hmlen, hwf c hc])

/-- C9: row deduplication (exact full-row equality, keep first
occurrence) is idempotent — on every table whose columns have the
uniform pandas length, running remove_duplicates twice yields the
same table as running it once. -/
theorem claim_C9_dedup_idempotent :
    ∀ t : Table, (∀ c ∈ t, c.cells.length = nRows t) →
      remove_duplicates (remove_duplicates t) = remove_duplicates t := by
  intro t hwf
  have h1 := rowsOf_remove_duplicates t hwf
  have hnodup : (rowsOf (remove_duplicates t)).Nodup := by
    rw [h1]
    exact dedupSeen_nodup _ []
  have hmask2 : maskDup [] (rowsOf (remove_duplicates t)) =
      List.replicate (rowsOf (remove_duplicates t)).length true :=
    maskDup_all_true _ [] hnodup (fun x _ hx => by simp at hx)
  have hstep : remove_duplicates (remove_duplicates t) =
      (remove_duplicates t).map (fun c =>
        { c with cells := applyMask (maskDup [] (rowsOf (remove_duplicates t))) c.cells }) := rfl
  rw [hstep, hmask2]
  apply map_id_of_mem
  intro c hc
  have hl : (rowsOf (remove_duplicates t)).length = c.cells.length := by
    rw [rowsOf, toRowsN_length]
    exact (remove_duplicates_uniform t hwf c hc).symm
  rw [hl, applyMask_all_true]

/-- Witness for C9: idempotence on a concrete table with one
duplicated row. -/
theorem claim_C9_witness :
    remove_duplicates (remove_duplicates
        [⟨"A", .obj, [.str "x", .str "y", .str "x"]⟩, ⟨"B", .num, [.num 1, .num 2, .num 1]⟩]) =
      remove_duplicates
        [⟨"A", .obj, [.str "x", .str "y", .str "x"]⟩, ⟨"B", .num, [.num 1, .num 2, .num 1]⟩] :=
  claim_C9_dedup_idempotent
    [⟨"A", .obj, [.str "x", .str "y", .str "x"]⟩, ⟨"B", .num, [.num 1, .num 2, .num 1]⟩]
    (by decide)

/-! ## Claim C1: the orchestrator never raises, amended -/

theorem names_map_stage (f : Col → Col) (hf : ∀ c, (f c).name = c.name) (t : Table) :
    (t.map f).map Col.name = t.map Col.name := by
  rw [List.map_map]
  exact List.map_congr_left fun c _ => hf c

theorem cleanTextCol_name (c : Col) : (cleanTextCol c).name = c.name := by
  rw [cleanTextCol]
  by_cases h : c.dtype = .obj
  · rw [if_pos h]
  · rw [if_neg h]

theorem salaryStep_name (c : Col) : (salaryStep c).name = c.name := by
  rw [salaryStep]
  by_cases h : hasSub "salary" c.name = true
  · rw [if_pos h]
  · rw [if_neg h]

theorem ageStep_name (c : Col) : (ageStep c).name = c.name := by
  rw [ageStep]
  by_cases h : hasSub "age" c.name = true
  · rw [if_pos h]
    rfl
  · rw [if_neg h]

theorem dateStep_name (fb : Cell → Option VDate) (c : Col) : (dateStep fb c).name = c.name := by
  rw [dateStep]
  by_cases h : c.dtype = .obj
  · rw [if_pos h]
    by_cases h2 : (c.cells.map (dateCellParse fb)).any (fun x => decide (x ≠ Cell.missing)) = true
    · rw [if_pos h2]
    · rw [if_neg h2]
  · rw [if_neg h]

theorem names_remove_duplicates (t : Table) :
    (remove_duplicates t).map Col.name = t.map Col.name := by
  show ((t.map fun c =>
      { c with cells := applyMask (maskDup [] (rowsOf t)) c.cells }).map Col.name) = _
  rw [List.map_map]
  exact List.map_congr_left fun c _ => rfl

theorem countMissing_add_nonMissing :
    ∀ l : List Cell, countMissing l + (nonMissing l).length = l.length := by
  intro l
  induction l with
  | nil => rfl
  | cons x xs ih =>
    by_cases hx : x = Cell.missing
    · subst hx
      have h1 : countMissing (Cell.missing :: xs) = countMissing xs + 1 := by
        rw [countMissing, countMissing, List.countP_cons]
        simp
      have h2 : nonMissing (Cell.missing :: xs) = nonMissing xs := by
        rw [nonMissing, nonMissing, List.filter_cons]
        simp
      rw [h1, h2, List.length_cons]
      omega
    · have h1 : countMissing (x :: xs) = countMissing xs := by
        rw [countMissing, countMissing, List.countP_cons]
        simp [hx]
      have h2 : nonMissing (x :: xs) = x :: nonMissing xs := by
        rw [nonMissing, nonMissing, List.filter_cons]
        simp [hx]
      rw [h1, h2, List.length_cons, List.length_cons]
      omega

theorem colImpute_ok_default (c : Col) :
    ∃ c', colImpute defaultThreshold c = .ok c' := by
  by_cases hg : colGuard defaultThreshold c = true
  · rw [colImpute, if_pos hg]
    cases hdt : c.dtype with
    | num =>
      cases hmed : medianOf (ratsOf c.cells) with
      | none => exact ⟨c, rfl⟩
      | some q => exact ⟨_, rfl⟩
    | obj =>
      have hlen : ¬ c.cells.length = 0 := by
        intro h0
        simp only [colGuard, missingFrac, if_pos h0] at hg
        exact absurd hg (by simp)
      have hcount : countMissing c.cells < c.cells.length := by
        simp only [colGuard, missingFrac, if_neg hlen] at hg
        simp only [leFlt, defaultThreshold, decide_eq_true_eq] at hg
        omega
      have hnm : nonMissing c.cells ≠ [] := by
        have hsum := countMissing_add_nonMissing c.cells
        intro hempty
        rw [hempty] at hsum
        simp at hsum
        omega
      obtain ⟨v, hv⟩ := modeMin_isSome hnm
      rw [hv]
      exact ⟨_, rfl⟩
  · rw [colImpute, if_neg hg]
    exact ⟨c, rfl⟩

theorem hmv_ok_default (t : Table) (hn : (t.map Col.name).Nodup) :
    ∃ t', handle_missing_values t defaultThreshold = .ok t' := by
  rw [handle_missing_values, if_neg (by simp [hasDupName_false hn])]
  exact exMapM_ok_of_all _ t (fun c _ => colImpute_ok_default c)

/-- C1 (counterexample): two well-formed input columns named a b and
a_b (named columns of equal length, ordinary string cells) collide to
the same normalised name A_B, after which the text-cleaning stage
accesses the duplicated label, obtains a two-column DataFrame and
raises AttributeError — auto_clean does not return a result for this
input, refuting no-error-for-every-well-formed-table. -/
theorem claim_C1_cex :
    auto_clean (fun _ => none) [⟨"a b", .obj, [.str "x"]⟩, ⟨"a_b", .obj, [.str "y"]⟩]
      = .error "AttributeError" := by rfl

/-- C1 (amended): for every fallback date parser and every well-formed
input table whose column names remain pairwise distinct after
normalisation, auto_clean returns a cleaned table and a report; every
per-cell parse failure is swallowed into a missing marker and no
error escapes.  (With colliding normalised names the pipeline raises,
as the counterexample shows.) -/
theorem claim_C1_no_error :
    ∀ (fb : Cell → Option VDate) (t : Table),
      (t.map (fun c => normName c.name)).Nodup →
      ∃ r : Table × CleaningReport, auto_clean fb t = .ok r := by
  intro fb t hn
  have hn1 : (clean_column_names t).map Col.name = t.map (fun c => normName c.name) := by
    rw [clean_column_names, List.map_map]
    rfl
  have hn2 : (remove_duplicates (clean_column_names t)).map Col.name =
      t.map (fun c => normName c.name) := by
    rw [names_remove_duplicates, hn1]
  have hnd2 : ((remove_duplicates (clean_column_names t)).map Col.name).Nodup := by
    rw [hn2]; exact hn
  have hct : clean_text_columns (remove_duplicates (clean_column_names t))
      = .ok ((remove_duplicates (clean_column_names t)).map cleanTextCol) := by
    rw [clean_text_columns, if_neg (by simp [hasObjDupName_false hnd2])]
  have hn4 : (normalize_salary_column
      ((remove_duplicates (clean_column_names t)).map cleanTextCol)).map Col.name =
      (remove_duplicates (clean_column_names t)).map Col.name := by
    rw [normalize_salary_column, names_map_stage _ salaryStep_name,
      names_map_stage _ cleanTextCol_name]
  have hnd4 : ((normalize_salary_column
      ((remove_duplicates (clean_column_names t)).map cleanTextCol)).map Col.name).Nodup := by
    rw [hn4]; exact hnd2
  have hage : normalize_age_column (normalize_salary_column
      ((remove_duplicates (clean_column_names t)).map cleanTextCol)) =
      .ok ((normalize_salary_column
        ((remove_duplicates (clean_column_names t)).map cleanTextCol)).map ageStep) := by
    rw [normalize_age_column, if_neg (by simp [hasAgeDupName_false hnd4])]
  have hnd5 : (((normalize_salary_column
      ((remove_duplicates (clean_column_names t)).map cleanTextCol)).map ageStep).map
        Col.name).Nodup := by
    rw [names_map_stage _ ageStep_name]
    exact hnd4
  have hdates : parse_date_columns fb ((normalize_salary_column
      ((remove_duplicates (clean_column_names t)).map cleanTextCol)).map ageStep) =
      .ok (((normalize_salary_column
        ((remove_duplicates (clean_column_names t)).map cleanTextCol)).map ageStep).map
          (dateStep fb)) := by
    rw [parse_date_columns, if_neg (by simp [hasDupName_false hnd5])]
  have hnd6 : ((((normalize_salary_column
      ((remove_duplicates (clean_column_names t)).map cleanTextCol)).map ageStep).map
        (dateStep fb)).map Col.name).Nodup := by
    rw [names_map_stage _ (dateStep_name fb)]
    exact hnd5
  obtain ⟨t7, h7⟩ := hmv_ok_default _ hnd6
  refine ⟨(t7, generate_cleaning_report t t7), ?_⟩
  simp only [auto_clean, bind, Except.bind, hct, hage, hdates, h7, pure, Except.pure]

/-- Witness for C1: a concrete salary table with mixed numerals runs
to completion. -/
theorem claim_C1_witness :
    ∃ r : Table × CleaningReport,
      auto_clean (fun _ => none) [⟨"Salary", .obj, [.str "$50,000", .str "xl"]⟩] = .ok r :=
  claim_C1_no_error (fun _ => none) [⟨"Salary", .obj, [.str "$50,000", .str "xl"]⟩] (by decide)
